import Mathlib

/-!
Verification of the pkb state-tracking and text-segmentation core.

Shallow embedding of:
- `src/pkb/core/models.py` (`FileState`, `ChangeType`, `Change`),
- `src/pkb/state/detector.py` (`ChangeDetector.detect_changes`,
  `ChangeDetector.update_stored_states`),
- `src/pkb/state/store.py` (`StateStore.save_state`, `delete_state`,
  `get_states_by_source`; the SQLite table is modelled as a list of rows,
  `INSERT OR REPLACE` removes every row conflicting with the primary key `id`
  or the `UNIQUE(source, file_path)` constraint before inserting),
- `src/pkb/state/utils.py` (`compute_file_hash`, `compute_content_hash`;
  the filesystem is a partial map from paths to byte lists and the hash
  algorithm an abstract function on byte lists),
- `src/pkb/indexing/processor.py` (`DocumentProcessor.chunk_text`,
  `_find_sentence_boundary`, `_find_word_boundary`; Python strings are
  `List Char`, Python slice/`rfind`/`strip` semantics are reproduced,
  including clamping and negative-index wrap-around).
-/

namespace Pkb

/-- `pkb.core.models.FileState` (dataclass fields; `mtime` is informational,
modelled as `Int`, `metadata` as an association list, `last_indexed` as the
serialized timestamp string). -/
structure FileState where
  id : String
  source : String
  file_path : String
  content_hash : String
  mtime : Int
  size : Nat
  metadata : List (String × String)
  last_indexed : String
deriving DecidableEq, Repr

/-- `pkb.core.models.ChangeType`. -/
inductive ChangeType where
  | added
  | modified
  | deleted
deriving DecidableEq, Repr

/-- `pkb.core.models.Change`. -/
structure Change where
  change_type : ChangeType
  file_state : FileState
  previous_state : Option FileState := none
deriving DecidableEq, Repr

/-- `FileState.has_changed`: hash-only comparison. -/
def FileState.has_changed (a b : FileState) : Bool :=
  a.content_hash != b.content_hash

/-! ## Change detector (`src/pkb/state/detector.py`)

`current_states : dict[str, FileState]` is a key-ordered association list;
the stored comparison set `{s.id: s for s in ...}` is a list of states whose
`id`s are distinct (the store's primary key guarantees this). -/

/-- Lookup in the stored-states dict built as `{s.id: s for s in stored}`. -/
def findStored (stored : List FileState) (fid : String) : Option FileState :=
  stored.find? (fun s => s.id == fid)

/-- Lookup in the `current_states` dict. -/
def lookupCur (current : List (String × FileState)) (fid : String) :
    Option FileState :=
  (current.find? (fun p => p.1 == fid)).map (·.2)

/-- Body of the first pass of `detect_changes` (lines 45-60): for one
`(file_id, current_state)` item, emit `ADDED` when the id is not stored,
`MODIFIED` when stored with a different `content_hash`, nothing otherwise. -/
def emitCurrent (stored : List FileState) (p : String × FileState) :
    Option Change :=
  match findStored stored p.1 with
  | none => some { change_type := .added, file_state := p.2 }
  | some stored_state =>
    if p.2.has_changed stored_state then
      some { change_type := .modified, file_state := p.2,
             previous_state := some stored_state }
    else
      none

/-- Body of the second pass of `detect_changes` (lines 62-70): for one stored
state, emit `DELETED` when its id is absent from `current_states`. -/
def emitStored (current : List (String × FileState)) (st : FileState) :
    Option Change :=
  if (current.find? (fun p => p.1 == st.id)).isSome then
    none
  else
    some { change_type := .deleted, file_state := st,
           previous_state := some st }

/-- `ChangeDetector.detect_changes` given the already-loaded comparison set
`stored` (the result of `get_states_by_source` or `get_all_states`). -/
def detect_changes (current : List (String × FileState))
    (stored : List FileState) : List Change :=
  current.filterMap (emitCurrent stored) ++ stored.filterMap (emitStored current)

/-! ## State store (`src/pkb/state/store.py`)

The SQLite table `file_state` is modelled as a list of rows.  `save_state`
runs `INSERT OR REPLACE`, whose `REPLACE` resolution first deletes every row
that would violate the primary key (`id`) or the `UNIQUE(source, file_path)`
constraint, then inserts the new row. -/

/-- Does row `r` conflict with an inserted state `st` (primary key `id` or
`UNIQUE(source, file_path)`)? -/
def rowConflicts (st r : FileState) : Bool :=
  r.id == st.id || (r.source == st.source && r.file_path == st.file_path)

/-- `StateStore.save_state` (lines 52-80): `INSERT OR REPLACE`. -/
def save_state (store : List FileState) (st : FileState) : List FileState :=
  store.filter (fun r => !rowConflicts st r) ++ [st]

/-- `StateStore.delete_state` (lines 144-160): `DELETE ... WHERE id = ?`
(only the resulting table content is modelled). -/
def delete_state (store : List FileState) (fid : String) : List FileState :=
  store.filter (fun r => !(r.id == fid))

/-- `StateStore.get_states_by_source` (lines 105-125):
`SELECT * FROM file_state WHERE source = ?`. -/
def get_states_by_source (store : List FileState) (source : String) :
    List FileState :=
  store.filter (fun r => r.source == source)

/-- `StateStore.get_all_states` (lines 127-142). -/
def get_all_states (store : List FileState) : List FileState :=
  store

/-- One iteration of `ChangeDetector.update_stored_states` (lines 127-133):
`DELETED` changes delete by id, all others save the carried state. -/
def apply_change (store : List FileState) (ch : Change) : List FileState :=
  if ch.change_type == .deleted then
    delete_state store ch.file_state.id
  else
    save_state store ch.file_state

/-- `ChangeDetector.update_stored_states` (lines 120-133). -/
def update_stored_states (store : List FileState) (changes : List Change) :
    List FileState :=
  changes.foldl apply_change store

/-- `detect_changes` with a source scope: the comparison set is loaded with
`get_states_by_source` (detector.py lines 40-41). -/
def detect_changes_scoped (store : List FileState)
    (current : List (String × FileState)) (source : String) : List Change :=
  detect_changes current (get_states_by_source store source)

/-! ## Python string primitives

Python strings are `List Char`; slicing, `rfind` and `strip` follow CPython
semantics (negative indices count from the end, out-of-range indices clamp). -/

/-- Resolve a Python slice index against length `n`: negative indices count
from the end, the result is clamped to `[0, n]`. -/
def pyIdx (n : Nat) (i : Int) : Nat :=
  if i < 0 then ((n : Int) + i).toNat else min i.toNat n

/-- Python slice `l[a:b]`. -/
def pySlice (l : List Char) (a b : Int) : List Char :=
  (l.take (pyIdx l.length b)).drop (pyIdx l.length a)

/-- Does `sub` occur in `s` starting at position `i`? -/
def matchesAt (s sub : List Char) (i : Nat) : Bool :=
  sub.isPrefixOf (s.drop i)

/-- Scan for the last occurrence of `sub` in `s` at a position `≤ n`. -/
def rfindAux (s sub : List Char) : Nat → Int
  | 0 => if matchesAt s sub 0 then 0 else -1
  | n + 1 => if matchesAt s sub (n + 1) then ((n + 1 : Nat) : Int)
             else rfindAux s sub n

/-- Python `s.rfind(sub)`: index of the last occurrence of `sub`, `-1` when
`sub` does not occur. -/
def pyRfind (s sub : List Char) : Int :=
  rfindAux s sub s.length

/-- The characters Python `str.strip()` removes (whitespace; the inputs in
this development are ASCII, where these six are exactly Python whitespace). -/
def isPyWs (c : Char) : Bool :=
  c == ' ' || c == '\t' || c == '\n' || c == '\r' ||
  c == Char.ofNat 11 || c == Char.ofNat 12

/-- Python `s.strip()`. -/
def pyStrip (l : List Char) : List Char :=
  ((l.dropWhile isPyWs).reverse.dropWhile isPyWs).reverse

/-! ## Text segmenter (`src/pkb/indexing/processor.py`) -/

/-- `DocumentProcessor` construction parameters. -/
structure DocumentProcessor where
  chunk_size : Nat := 512
  chunk_overlap : Nat := 50
  min_chunk_size : Nat := 100
deriving DecidableEq, Repr

/-- The sentence delimiters of `_find_sentence_boundary`, in source order
(processor.py line 94). -/
def sentenceDelims : List (List Char) :=
  [['.', ' '], ['!', ' '], ['?', ' '], ['.', '\n'], ['!', '\n'], ['?', '\n']]

/-- The delimiter loop of `_find_sentence_boundary` (lines 94-97): return
`s + pos + len(delimiter) - 1` at the first delimiter whose `rfind`
succeeds, `-1` when none occurs.  Note `s` is the raw (possibly negative)
window start, exactly as in the source. -/
def findDelimLoop (search_text : List Char) (s : Int) :
    List (List Char) → Int
  | [] => -1
  | d :: ds =>
    let pos := pyRfind search_text d
    if pos != -1 then s + pos + (d.length : Int) - 1
    else findDelimLoop search_text s ds

/-- `DocumentProcessor._find_sentence_boundary` (lines 88-99). -/
def find_sentence_boundary (text : List Char) (s e : Int) : Int :=
  findDelimLoop (pySlice text (max 0 s) e) s sentenceDelims

/-- The whitespace delimiters of `_find_word_boundary` (line 107). -/
def wordDelims : List (List Char) := [[' '], ['\n'], ['\t']]

/-- The delimiter loop of `_find_word_boundary` (lines 107-110): return
`s + pos` at the first delimiter whose `rfind` succeeds. -/
def findWordLoop (search_text : List Char) (s : Int) :
    List (List Char) → Int
  | [] => -1
  | d :: ds =>
    let pos := pyRfind search_text d
    if pos != -1 then s + pos else findWordLoop search_text s ds

/-- `DocumentProcessor._find_word_boundary` (lines 101-112). -/
def find_word_boundary (text : List Char) (s e : Int) : Int :=
  findWordLoop (pySlice text (max 0 s) e) s wordDelims

/-- Lines 60-68 of `chunk_text`: the boundary-adjusted end offset for the
iteration starting at `start`. -/
def adjustEnd (P : DocumentProcessor) (text : List Char) (start : Nat) : Int :=
  let e0 : Int := (start : Int) + P.chunk_size
  if e0 < (text.length : Int) then
    let sentence_end := find_sentence_boundary text (e0 - 100) e0
    if sentence_end != -1 then sentence_end + 1
    else
      let word_end := find_word_boundary text (e0 - 50) e0
      if word_end != -1 then word_end else e0
  else e0

/-- Lines 77-84 of `chunk_text`: the next loop start offset (always a
natural number: when `next_start ≤ start` the loop forces `end` — positive
in that branch — or `start + 1`). -/
def nextStart (P : DocumentProcessor) (e : Int) (start : Nat) : Nat :=
  let ns : Int := e - P.chunk_overlap
  if ns ≤ (start : Int) then (if (start : Int) < e then e.toNat else start + 1)
  else ns.toNat

/-- One unfolding of the `while start < len(text)` loop of `chunk_text`
(lines 59-84), recording the `(start, end)` pair of each iteration.  The
loop body forces `start` to grow by at least one per iteration, so
`text.length - start` iterations always suffice; the structural `fuel`
argument makes the function kernel-computable, and
`chunk_loop_fuel_irrelevant` below shows the result does not depend on the
fuel as long as it is sufficient. -/
def chunk_loop (P : DocumentProcessor) (text : List Char) :
    Nat → Nat → List (Nat × Int)
  | 0, _ => []
  | fuel + 1, start =>
    if start < text.length then
      (start, adjustEnd P text start) ::
        chunk_loop P text fuel (nextStart P (adjustEnd P text start) start)
    else []

/-- The `(start, end)` pairs visited by the `while start < len(text)` loop of
`chunk_text` (lines 59-84). -/
def chunk_iters (P : DocumentProcessor) (text : List Char) (start : Nat) :
    List (Nat × Int) :=
  chunk_loop P text (text.length - start) start

/-- Lines 70-75 of one `chunk_text` iteration: slice the text, strip it, and
keep the chunk only when it reaches `min_chunk_size`. -/
def iterChunk (P : DocumentProcessor) (text : List Char) (it : Nat × Int) :
    Option (List Char) :=
  let chunk := pyStrip (pySlice text (it.1 : Int) it.2)
  if P.min_chunk_size ≤ chunk.length then some chunk else none

/-- `DocumentProcessor.chunk_text` (lines 43-86). -/
def chunk_text (P : DocumentProcessor) (text : List Char) : List (List Char) :=
  if text.length ≤ P.chunk_size then
    if text.isEmpty then [] else [text]
  else
    (chunk_iters P text 0).filterMap (iterChunk P text)

/-- The sequence of start offsets taken by the `chunk_text` loop. -/
def chunk_starts (P : DocumentProcessor) (text : List Char) : List Nat :=
  if text.length ≤ P.chunk_size then []
  else (chunk_iters P text 0).map Prod.fst

/-! ## Fingerprint utility (`src/pkb/state/utils.py`) -/

/-- Error kinds raised by the state core (`FileNotFoundError`,
`StateStoreException`). -/
inductive PkbError where
  | fileNotFound
  | stateStoreError
deriving DecidableEq, Repr

/-- The block reads of `compute_file_hash` (utils.py line 28):
`while chunk := f.read(chunk_size)` yields successive blocks of at most
`chunk_size` bytes until a read comes back empty; `f.read(0)` is always
empty, so a zero block size reads nothing at all. -/
def read_chunks (content : List UInt8) (chunk_size : Nat) :
    List (List UInt8) :=
  if chunk_size = 0 then []
  else if hc : content.isEmpty then []
  else
    content.take chunk_size :: read_chunks (content.drop chunk_size) chunk_size
termination_by content.length
decreasing_by
  simp only [List.length_drop]
  have hlen : 0 < content.length := by
    cases content with
    | nil => simp at hc
    | cons a l => simp
  omega

/-- `compute_content_hash` (utils.py lines 34-51): one-shot digest.  The
hash algorithm is an abstract digest function `H` from byte content to hex
string; `content` is the already-encoded byte value. -/
def compute_content_hash (H : List UInt8 → String)
    (content : List UInt8) : String :=
  H content

/-- `compute_file_hash` (utils.py lines 8-31) over a filesystem modelled as
a partial map from paths to byte contents: a missing file raises
`FileNotFoundError`; otherwise the digest object accumulates the blocks
streamed by `read_chunks`, in order. -/
def compute_file_hash (H : List UInt8 → String)
    (fs : String → Option (List UInt8)) (path : String)
    (chunk_size : Nat) : Except PkbError String :=
  match fs path with
  | none => .error .fileNotFound
  | some content => .ok (H (read_chunks content chunk_size).flatten)

/-! ## Specification-side definitions for the boundary-preference claim -/

/-- An occurrence of delimiter `d` at offset `i` lying entirely within the
100-character lookback window before `e`. -/
def windowOcc (text : List Char) (e : Nat) (d : List Char) (i : Nat) : Prop :=
  e - 100 ≤ i ∧ i + d.length ≤ e ∧ matchesAt text d i = true

instance (text : List Char) (e : Nat) (d : List Char) (i : Nat) :
    Decidable (windowOcc text e d i) := by
  unfold windowOcc; infer_instance

/-- Modelled from the claim under test (not from the source): the greatest
offset of any sentence-delimiter occurrence inside the lookback window
before `e`, regardless of which of the delimiters it is. -/
def lastWindowOcc (text : List Char) (e : Nat) : Option Nat :=
  ((List.range e).filter (fun i =>
      sentenceDelims.any (fun d => decide (windowOcc text e d i)))).max?

/-! ## Concrete inputs used by counterexamples and witnesses -/

/-- Processor for the boundary-preference counterexample. -/
def procC5 : DocumentProcessor := ⟨120, 0, 1⟩

/-- 132 characters: `". "` at offset 50, `"! "` at offset 100, both inside
the lookback window `[20, 120)` of the first iteration. -/
def textC5 : List Char :=
  List.replicate 50 'a' ++ ['.', ' '] ++ List.replicate 48 'b' ++
    ['!', ' '] ++ List.replicate 30 'c'

/-- Processor for the chunk-length failing input. -/
def procC10 : DocumentProcessor := ⟨5, 0, 1⟩

/-- 100 characters starting with `". "`. -/
def textC10 : List Char := ['.', ' '] ++ List.replicate 98 'a'

/-! ## Proof-support definitions -/

/-- Does applying the change `ch` remove an existing row `r`?  A `DELETED`
change deletes by id; any other change saves, whose `INSERT OR REPLACE`
removes rows conflicting on `id` or on `(source, file_path)`.  Whether `r`
is removed depends only on `ch` and `r`, not on the rest of the store. -/
def killsRow (ch : Change) (r : FileState) : Bool :=
  if ch.change_type == .deleted then r.id == ch.file_state.id
  else rowConflicts ch.file_state r

/-- Row `r` survives the whole change list. -/
def survivesRow (r : FileState) (changes : List Change) : Prop :=
  ∀ ch ∈ changes, killsRow ch r = false

/-- Row `r` is written by some save in the change list and survives the
changes applied after it. -/
def writtenBy (r : FileState) : List Change → Prop
  | [] => False
  | ch :: l =>
    writtenBy r l ∨
      (ch.change_type ≠ .deleted ∧ r = ch.file_state ∧ survivesRow r l)

/-- The `(source, file_path)` uniqueness invariant of the `file_state`
table. -/
def UniqueSourcePath (store : List FileState) : Prop :=
  store.Pairwise (fun a b => ¬(a.source = b.source ∧ a.file_path = b.file_path))

/-! # Theorems -/

/-- Claim C2, amended, short-input path of `chunk_text` (processor.py lines
53-54): a non-empty text no longer than `chunk_size` yields exactly one
chunk, the input itself unmodified, bypassing the minimum-size filter. -/
theorem chunk_text_short_input (P : DocumentProcessor) (text : List Char)
    (hne : text ≠ []) (hlen : text.length ≤ P.chunk_size) :
    chunk_text P text = [text] := by
  simp [chunk_text, hlen, hne]

/-- Witness for `chunk_text_short_input` at the default configuration and
the two-character input `" a"`. -/
theorem chunk_text_short_input_witness :
    ([' ', 'a'] : List Char) ≠ [] ∧
    ([' ', 'a'] : List Char).length ≤ (512 : Nat) ∧
    chunk_text ⟨512, 50, 100⟩ [' ', 'a'] = [[' ', 'a']] :=
  ⟨by decide, by decide,
    chunk_text_short_input ⟨512, 50, 100⟩ [' ', 'a'] (by decide) (by decide)⟩

/-- Claim C2, counterexample to the claim as stated: on the input `" a"`
(length 2, below `min_chunk_size`), the single returned chunk is the
untrimmed input `" a"`, not the trimmed `"a"` the claim predicts. -/
theorem chunk_text_short_input_untrimmed :
    chunk_text ⟨512, 50, 100⟩ [' ', 'a'] = [[' ', 'a']] ∧
    pyStrip [' ', 'a'] = ['a'] ∧ ([' ', 'a'] : List Char) ≠ ['a'] := by
  exact ⟨by decide, by decide, by decide⟩

/-- The loop of `chunk_text` always advances: the start offset of the next
iteration is strictly greater (processor.py lines 77-84). -/
theorem lt_nextStart (P : DocumentProcessor) (e : Int) (start : Nat) :
    start < nextStart P e start := by
  simp only [nextStart]
  split
  · split <;> omega
  · omega

/-- Sufficient fuel makes `chunk_loop` independent of the exact fuel: the
loop stops within `text.length - start` iterations because every iteration
strictly increases `start`. -/
theorem chunk_loop_fuel_irrelevant (P : DocumentProcessor) (text : List Char) :
    ∀ f1 f2 start, text.length - start ≤ f1 → text.length - start ≤ f2 →
      chunk_loop P text f1 start = chunk_loop P text f2 start := by
  intro f1
  induction f1 with
  | zero =>
    intro f2 start h1 _
    have hge : ¬ start < text.length := by omega
    cases f2 with
    | zero => rfl
    | succ f2 => simp [chunk_loop, hge]
  | succ f1 ih =>
    intro f2 start h1 h2
    cases f2 with
    | zero =>
      have hge : ¬ start < text.length := by omega
      simp [chunk_loop, hge]
    | succ f2 =>
      by_cases h : start < text.length
      · simp only [chunk_loop, if_pos h]
        have hlt := lt_nextStart P (adjustEnd P text start) start
        rw [ih f2 (nextStart P (adjustEnd P text start) start) (by omega)
          (by omega)]
      · simp [chunk_loop, h]

/-- The start offsets visited by the loop are strictly increasing, from any
position and with any fuel. -/
theorem chunk_loop_starts_chain (P : DocumentProcessor) (text : List Char) :
    ∀ (fuel start : Nat),
      List.Chain' (· < ·) ((chunk_loop P text fuel start).map Prod.fst) := by
  intro fuel
  induction fuel with
  | zero =>
    intro start
    simp [chunk_loop]
  | succ fuel ih =>
    intro start
    simp only [chunk_loop]
    split
    · next h =>
      simp only [List.map_cons]
      refine List.Chain'.cons' (ih _) ?_
      intro y hy
      have hlt := lt_nextStart P (adjustEnd P text start) start
      cases fuel with
      | zero => simp [chunk_loop] at hy
      | succ fuel =>
        simp only [chunk_loop] at hy
        split at hy
        · simp only [List.map_cons, List.head?_cons, Option.mem_def,
            Option.some.injEq] at hy
          omega
        · simp at hy
    · simp

/-- The start offsets visited from any position form a strictly increasing
sequence. -/
theorem chunk_iters_starts_chain (P : DocumentProcessor) (text : List Char)
    (start : Nat) :
    List.Chain' (· < ·) ((chunk_iters P text start).map Prod.fst) :=
  chunk_loop_starts_chain P text (text.length - start) start

/-- Claim C6: for any parameters with `chunk_overlap ≥ chunk_size`
(pathological configuration) the `chunk_text` loop terminates — it is a
total function of a finite, strictly increasing list of start offsets. -/
theorem chunk_starts_strict_increasing (P : DocumentProcessor)
    (text : List Char) (hover : P.chunk_size ≤ P.chunk_overlap) :
    List.Chain' (· < ·) (chunk_starts P text) := by
  unfold chunk_starts
  split
  · simp
  · exact chunk_iters_starts_chain P text 0

/-- Witness for `chunk_starts_strict_increasing` with
`chunk_size = 3 ≤ chunk_overlap = 5` on an eight-character text. -/
theorem chunk_starts_strict_increasing_witness :
    (3 : Nat) ≤ (5 : Nat) ∧
    List.Chain' (· < ·)
      (chunk_starts ⟨3, 5, 1⟩ ['a', 'b', 'c', 'd', 'e', 'f', 'g', 'h']) :=
  ⟨by decide,
    chunk_starts_strict_increasing ⟨3, 5, 1⟩
      ['a', 'b', 'c', 'd', 'e', 'f', 'g', 'h'] (by decide)⟩

/-- Membership after one `update_stored_states` step: `r` is in the result
iff it was there and the change does not remove it, or the change saves
exactly `r`. -/
theorem mem_apply_change (store : List FileState) (ch : Change)
    (r : FileState) :
    r ∈ apply_change store ch ↔
      (r ∈ store ∧ killsRow ch r = false) ∨
        (ch.change_type ≠ .deleted ∧ r = ch.file_state) := by
  unfold apply_change killsRow delete_state save_state
  by_cases hdel : ch.change_type = .deleted
  · simp [hdel, List.mem_filter]
  · have hne : (ch.change_type == ChangeType.deleted) = false := by
      simpa using hdel
    simp [hne, hdel, List.mem_filter, List.mem_append, or_comm]

/-- `survivesRow` unfolded at a cons. -/
theorem survivesRow_cons (r : FileState) (ch : Change) (l : List Change) :
    survivesRow r (ch :: l) ↔
      (killsRow ch r = false ∧ survivesRow r l) := by
  simp [survivesRow]

/-- `writtenBy` unfolded at a cons. -/
theorem writtenBy_cons (r : FileState) (ch : Change) (l : List Change) :
    writtenBy r (ch :: l) ↔
      (writtenBy r l ∨
        (ch.change_type ≠ .deleted ∧ r = ch.file_state ∧ survivesRow r l)) :=
  Iff.rfl

/-- Membership in the store after `update_stored_states`: surviving original
rows plus rows written by a save that no later change removes. -/
theorem mem_update_stored_states (changes : List Change) :
    ∀ (store : List FileState) (r : FileState),
      r ∈ update_stored_states store changes ↔
        ((r ∈ store ∧ survivesRow r changes) ∨ writtenBy r changes) := by
  induction changes with
  | nil =>
    intro store r
    simp [update_stored_states, survivesRow, writtenBy]
  | cons ch l ih =>
    intro store r
    have hstep :
        update_stored_states store (ch :: l) =
          update_stored_states (apply_change store ch) l := rfl
    rw [hstep, ih, mem_apply_change, survivesRow_cons, writtenBy_cons]
    tauto

/-- Claim C3: `update_stored_states` is idempotent on the stored rows —
applying a change list twice leaves exactly the rows of applying it once
(`ADDED`/`MODIFIED` re-save the same state, `DELETED` deletes an absent
id). -/
theorem update_stored_states_idempotent (store : List FileState)
    (changes : List Change) (r : FileState) :
    r ∈ update_stored_states (update_stored_states store changes) changes ↔
      r ∈ update_stored_states store changes := by
  rw [mem_update_stored_states, mem_update_stored_states]
  tauto

/-- One `save_state` preserves the `(source, file_path)` uniqueness
invariant: `INSERT OR REPLACE` first removes every conflicting row. -/
theorem save_state_unique_source_path (store : List FileState)
    (st : FileState) (h : UniqueSourcePath store) :
    UniqueSourcePath (save_state store st) := by
  unfold UniqueSourcePath save_state
  rw [List.pairwise_append]
  refine ⟨h.filter _, List.pairwise_singleton _ _, ?_⟩
  intro a ha b hb
  rw [List.mem_filter] at ha
  simp only [List.mem_singleton] at hb
  subst hb
  have hc := ha.2
  unfold rowConflicts at hc
  simp only [Bool.not_eq_eq_eq_not, Bool.not_true, Bool.or_eq_false_iff,
    Bool.and_eq_false_iff, beq_eq_false_iff_ne, ne_eq] at hc
  rintro ⟨hs, hp⟩
  rcases hc.2 with h1 | h1 <;> exact h1 (by simp [hs, hp])

/-- Claim C7: after any sequence of `save_state` calls on a store satisfying
the `(source, file_path)` uniqueness invariant, the store still holds no two
rows with the same `(source, file_path)` pair — a save whose pair matches an
existing row under a different id overwrites it rather than duplicating. -/
theorem save_state_sequence_unique_source_path (store : List FileState)
    (h : UniqueSourcePath store) (saves : List FileState) :
    UniqueSourcePath (saves.foldl save_state store) := by
  induction saves generalizing store with
  | nil => exact h
  | cons st l ih =>
    exact ih (save_state store st) (save_state_unique_source_path store st h)

/-- Witness for `save_state_sequence_unique_source_path`: two saves with the
same `("S", "/p")` pair and different ids, starting from the empty store. -/
theorem save_state_sequence_unique_source_path_witness :
    UniqueSourcePath ([] : List FileState) ∧
    UniqueSourcePath
      ([⟨"id1", "S", "/p", "h1", 0, 0, [], "t1"⟩,
        ⟨"id2", "S", "/p", "h2", 0, 0, [], "t2"⟩].foldl save_state []) :=
  ⟨List.Pairwise.nil,
    save_state_sequence_unique_source_path [] List.Pairwise.nil
      [⟨"id1", "S", "/p", "h1", 0, 0, [], "t1"⟩,
       ⟨"id2", "S", "/p", "h2", 0, 0, [], "t2"⟩]⟩

/-- The streamed blocks of `compute_file_hash` concatenate back to the whole
content whenever the block size is positive. -/
theorem read_chunks_flatten (cs : Nat) (hcs : 0 < cs) :
    ∀ content : List UInt8, (read_chunks content cs).flatten = content := by
  have H : ∀ (n : Nat) (content : List UInt8), content.length ≤ n →
      (read_chunks content cs).flatten = content := by
    intro n
    induction n with
    | zero =>
      intro c hle
      have hc : c = [] := by
        cases c with
        | nil => rfl
        | cons a l => simp at hle
      rw [read_chunks]
      simp [hc]
    | succ n ih =>
      intro c hle
      rw [read_chunks, if_neg (by omega)]
      by_cases hc : c.isEmpty
      · have hnil : c = [] := by simpa using hc
        rw [dif_pos hc, hnil]
        rfl
      · rw [dif_neg hc]
        have hlen : 0 < c.length := by
          cases c with
          | nil => simp at hc
          | cons a l => simp
        rw [List.flatten_cons, ih (c.drop cs) (by simp; omega)]
        exact List.take_append_drop cs c
  intro content
  exact H content.length content le_rfl

/-- Claim C8: the block-streamed file hash equals the one-shot content hash:
for every digest function, filesystem, path and positive block size, a file
that exists hashes to exactly `compute_content_hash` of its byte content. -/
theorem compute_file_hash_eq_content_hash (H : List UInt8 → String)
    (fs : String → Option (List UInt8)) (path : String)
    (content : List UInt8) (cs : Nat) (hcs : 0 < cs)
    (hfs : fs path = some content) :
    compute_file_hash H fs path cs =
      .ok (compute_content_hash H content) := by
  unfold compute_file_hash compute_content_hash
  rw [hfs]
  show Except.ok (H (read_chunks content cs).flatten) = Except.ok (H content)
  rw [read_chunks_flatten cs hcs content]

/-- Witness for `compute_file_hash_eq_content_hash` at the default 8192-byte
block size on a three-byte file. -/
theorem compute_file_hash_eq_content_hash_witness :
    (0 : Nat) < 8192 ∧
    (fun _ : String => some [(1 : UInt8), 2, 3]) "f" = some [1, 2, 3] ∧
    compute_file_hash (fun bs => toString bs.length)
        (fun _ => some [(1 : UInt8), 2, 3]) "f" 8192 =
      .ok (compute_content_hash (fun bs => toString bs.length) [1, 2, 3]) :=
  ⟨by decide, rfl,
    compute_file_hash_eq_content_hash (fun bs => toString bs.length)
      (fun _ => some [(1 : UInt8), 2, 3]) "f" [1, 2, 3] 8192 (by decide) rfl⟩

/-- Claim C9: `compute_file_hash` fails with `FileNotFoundError` iff the
backing file is absent at call time; when the file exists it returns a
digest and no error. -/
theorem compute_file_hash_notfound_iff (H : List UInt8 → String)
    (fs : String → Option (List UInt8)) (path : String) (cs : Nat) :
    (compute_file_hash H fs path cs = .error .fileNotFound ↔ fs path = none)
    ∧ (∀ content, fs path = some content →
        ∃ d, compute_file_hash H fs path cs = .ok d) := by
  constructor
  · unfold compute_file_hash
    cases hfs : fs path <;> simp
  · intro c hc
    unfold compute_file_hash
    rw [hc]
    exact ⟨_, rfl⟩

/-- Witness for `compute_file_hash_notfound_iff`: an absent path errors, a
present path hashes. -/
theorem compute_file_hash_notfound_iff_witness :
    compute_file_hash (fun _ => "d") (fun _ => none) "gone" 8192 =
      .error .fileNotFound ∧
    ∃ d, compute_file_hash (fun _ => "d")
        (fun _ => some [(7 : UInt8)]) "here" 8192 = .ok d :=
  ⟨(compute_file_hash_notfound_iff (fun _ => "d") (fun _ => none) "gone"
      8192).1.mpr rfl,
    (compute_file_hash_notfound_iff (fun _ => "d")
      (fun _ => some [(7 : UInt8)]) "here" 8192).2 [7] rfl⟩

/-- Claim C4: a scoped `detect_changes` never reports `DELETED` for an id
stored only under another source: every `DELETED` change carries a stored
state from the scoped source, because the comparison set is loaded with
`get_states_by_source`. -/
theorem detect_changes_scoped_deleted_same_source (store : List FileState)
    (current : List (String × FileState)) (S : String) (ch : Change)
    (hmem : ch ∈ detect_changes_scoped store current S)
    (hdel : ch.change_type = .deleted) :
    ch.file_state.source = S := by
  unfold detect_changes_scoped detect_changes at hmem
  rw [List.mem_append] at hmem
  cases hmem with
  | inl hmem =>
    obtain ⟨p, _, hemit⟩ := List.mem_filterMap.mp hmem
    unfold emitCurrent at hemit
    split at hemit
    · cases hemit
      simp at hdel
    · split at hemit
      · cases hemit
        simp at hdel
      · cases hemit
  | inr hmem =>
    obtain ⟨st, hst, hemit⟩ := List.mem_filterMap.mp hmem
    unfold emitStored at hemit
    split at hemit
    · cases hemit
    · cases hemit
      unfold get_states_by_source at hst
      rw [List.mem_filter] at hst
      simpa using hst.2

/-- Witness for `detect_changes_scoped_deleted_same_source`: a store holding
one `"S1"` row, scanned with an empty snapshot scoped to `"S1"`. -/
theorem detect_changes_scoped_deleted_same_source_witness :
    (⟨.deleted, ⟨"idB", "S1", "/b", "hB", 0, 0, [], "t"⟩,
        some ⟨"idB", "S1", "/b", "hB", 0, 0, [], "t"⟩⟩ : Change) ∈
      detect_changes_scoped [⟨"idB", "S1", "/b", "hB", 0, 0, [], "t"⟩] []
        "S1" ∧
    (⟨"idB", "S1", "/b", "hB", 0, 0, [], "t"⟩ : FileState).source = "S1" :=
  ⟨by decide,
    detect_changes_scoped_deleted_same_source
      [⟨"idB", "S1", "/b", "hB", 0, 0, [], "t"⟩] [] "S1"
      ⟨.deleted, ⟨"idB", "S1", "/b", "hB", 0, 0, [], "t"⟩,
        some ⟨"idB", "S1", "/b", "hB", 0, 0, [], "t"⟩⟩
      (by decide) rfl⟩

/-- An emitted first-pass change carries the current state of its item. -/
theorem emitCurrent_file_state (stored : List FileState)
    (p : String × FileState) (ch : Change)
    (h : emitCurrent stored p = some ch) : ch.file_state = p.2 := by
  unfold emitCurrent at h
  split at h
  · cases h; rfl
  · split at h
    · cases h; rfl
    · cases h

/-- First-pass emission when the id is not stored. -/
theorem emitCurrent_eval_added (stored : List FileState)
    (p : String × FileState) (h : findStored stored p.1 = none) :
    emitCurrent stored p = some { change_type := .added, file_state := p.2 } := by
  unfold emitCurrent
  rw [h]

/-- First-pass emission when the id is stored with a different hash. -/
theorem emitCurrent_eval_modified (stored : List FileState)
    (p : String × FileState) (st : FileState)
    (h : findStored stored p.1 = some st) (hch : p.2.has_changed st = true) :
    emitCurrent stored p =
      some { change_type := .modified, file_state := p.2,
             previous_state := some st } := by
  unfold emitCurrent
  rw [h]
  simp [hch]

/-- First-pass emission when the id is stored with an equal hash. -/
theorem emitCurrent_eval_unchanged (stored : List FileState)
    (p : String × FileState) (st : FileState)
    (h : findStored stored p.1 = some st) (hch : p.2.has_changed st = false) :
    emitCurrent stored p = none := by
  unfold emitCurrent
  rw [h]
  simp [hch]

/-- An emitted second-pass change carries the stored state of its item. -/
theorem emitStored_file_state (current : List (String × FileState))
    (st : FileState) (ch : Change) (h : emitStored current st = some ch) :
    ch.file_state = st := by
  unfold emitStored at h
  split at h
  · cases h
  · cases h; rfl

/-- Second-pass emission when the stored id is still in the snapshot. -/
theorem emitStored_eval_present (current : List (String × FileState))
    (st : FileState) (h : (lookupCur current st.id).isSome) :
    emitStored current st = none := by
  unfold emitStored
  unfold lookupCur at h
  cases hf : List.find? (fun p => p.1 == st.id) current with
  | none => rw [hf] at h; simp at h
  | some q => simp [hf]

/-- Second-pass emission when the stored id is gone from the snapshot. -/
theorem emitStored_eval_absent (current : List (String × FileState))
    (st : FileState) (h : lookupCur current st.id = none) :
    emitStored current st =
      some { change_type := .deleted, file_state := st,
             previous_state := some st } := by
  unfold emitStored
  unfold lookupCur at h
  cases hf : List.find? (fun p => p.1 == st.id) current with
  | none => simp [hf]
  | some q => rw [hf] at h; simp at h

/-- No first-pass change concerns an id absent from the snapshot keys. -/
theorem filter_emitCurrent_not_mem (stored : List FileState) (fid : String) :
    ∀ current : List (String × FileState),
      (∀ p ∈ current, p.2.id = p.1) → fid ∉ current.map Prod.fst →
      (current.filterMap (emitCurrent stored)).filter
        (fun ch => ch.file_state.id == fid) = [] := by
  intro current
  induction current with
  | nil => simp
  | cons p l ih =>
    intro hkey hnm
    simp only [List.map_cons, List.mem_cons, not_or] at hnm
    have hkeyl : ∀ q ∈ l, q.2.id = q.1 := fun q hq => hkey q (by simp [hq])
    rw [List.filterMap_cons]
    cases hem : emitCurrent stored p with
    | none => exact ih hkeyl hnm.2
    | some ch =>
      have hid : ch.file_state.id = p.1 := by
        rw [emitCurrent_file_state stored p ch hem]
        exact hkey p (by simp)
      rw [List.filter_cons]
      have hfalse : (ch.file_state.id == fid) = false := by
        simp only [beq_eq_false_iff_ne, ne_eq, hid]
        exact fun h => hnm.1 h.symm
      simp only [hfalse, Bool.false_eq_true, if_false]
      exact ih hkeyl hnm.2

/-- No second-pass change concerns an id absent from the stored ids. -/
theorem filter_emitStored_not_mem (current : List (String × FileState))
    (fid : String) :
    ∀ stored : List FileState, fid ∉ stored.map FileState.id →
      (stored.filterMap (emitStored current)).filter
        (fun ch => ch.file_state.id == fid) = [] := by
  intro stored
  induction stored with
  | nil => simp
  | cons st l ih =>
    intro hnm
    simp only [List.map_cons, List.mem_cons, not_or] at hnm
    rw [List.filterMap_cons]
    cases hem : emitStored current st with
    | none => exact ih hnm.2
    | some ch =>
      have hid : ch.file_state.id = st.id :=
        congrArg FileState.id (emitStored_file_state current st ch hem)
      rw [List.filter_cons]
      have hfalse : (ch.file_state.id == fid) = false := by
        simp only [beq_eq_false_iff_ne, ne_eq, hid]
        exact fun h => hnm.1 h.symm
      simp only [hfalse, Bool.false_eq_true, if_false]
      exact ih hnm.2

/-- The first pass of `detect_changes`, restricted to one id: one `ADDED`
when the id is scanned but not stored, one `MODIFIED` when scanned and
stored with different hashes, nothing otherwise. -/
theorem filter_emitCurrent_eq (stored : List FileState) (fid : String) :
    ∀ current : List (String × FileState),
      (current.map Prod.fst).Nodup →
      (∀ p ∈ current, p.2.id = p.1) →
      (current.filterMap (emitCurrent stored)).filter
          (fun ch => ch.file_state.id == fid) =
        (match lookupCur current fid with
         | none => []
         | some c =>
           match findStored stored fid with
           | none => [{ change_type := .added, file_state := c }]
           | some st =>
             if c.has_changed st then
               [{ change_type := .modified, file_state := c,
                  previous_state := some st }]
             else []) := by
  intro current
  induction current with
  | nil => simp [lookupCur]
  | cons p l ih =>
    intro hnd hkey
    simp only [List.map_cons, List.nodup_cons] at hnd
    have hkeyl : ∀ q ∈ l, q.2.id = q.1 := fun q hq => hkey q (by simp [hq])
    have hid : p.2.id = p.1 := hkey p (by simp)
    rw [List.filterMap_cons]
    by_cases hp : p.1 = fid
    · subst hp
      have hlk : lookupCur (p :: l) p.1 = some p.2 := by
        simp [lookupCur, List.find?_cons]
      rw [hlk]
      have hrest := filter_emitCurrent_not_mem stored p.1 l hkeyl hnd.1
      cases hf : findStored stored p.1 with
      | none =>
        rw [emitCurrent_eval_added stored p hf, List.filter_cons]
        simp only [hf, hid, beq_self_eq_true, if_true, hrest]
      | some st =>
        cases hch : p.2.has_changed st with
        | true =>
          rw [emitCurrent_eval_modified stored p st hf hch, List.filter_cons]
          simp only [hf, hid, beq_self_eq_true, if_true, hrest, hch]
        | false =>
          rw [emitCurrent_eval_unchanged stored p st hf hch]
          simp only [hf, hrest, hch, Bool.false_eq_true, if_false]
    · have hlk : lookupCur (p :: l) fid = lookupCur l fid := by
        simp [lookupCur, List.find?_cons, hp]
      rw [hlk]
      cases hem : emitCurrent stored p with
      | none => exact ih hnd.2 hkeyl
      | some ch =>
        have hcid : ch.file_state.id = p.1 := by
          rw [emitCurrent_file_state stored p ch hem]; exact hid
        rw [List.filter_cons]
        have hfalse : (ch.file_state.id == fid) = false := by
          simp only [beq_eq_false_iff_ne, ne_eq, hcid]
          exact hp
        simp only [hfalse, Bool.false_eq_true, if_false]
        exact ih hnd.2 hkeyl

/-- The second pass of `detect_changes`, restricted to one id: one `DELETED`
when the id is stored but not scanned, nothing otherwise. -/
theorem filter_emitStored_eq (current : List (String × FileState))
    (fid : String) :
    ∀ stored : List FileState,
      (stored.map FileState.id).Nodup →
      (stored.filterMap (emitStored current)).filter
          (fun ch => ch.file_state.id == fid) =
        (match findStored stored fid with
         | none => []
         | some st =>
           match lookupCur current fid with
           | some _ => []
           | none =>
             [{ change_type := .deleted, file_state := st,
                previous_state := some st }]) := by
  intro stored
  induction stored with
  | nil => simp [findStored]
  | cons st l ih =>
    intro hnd
    simp only [List.map_cons, List.nodup_cons] at hnd
    rw [List.filterMap_cons]
    by_cases hs : st.id = fid
    · subst hs
      have hf : findStored (st :: l) st.id = some st := by
        simp [findStored, List.find?_cons]
      rw [hf]
      have hrest := filter_emitStored_not_mem current st.id l hnd.1
      cases hlc : lookupCur current st.id with
      | some c =>
        rw [emitStored_eval_present current st (by simp [hlc])]
        simp only [hlc, hrest]
      | none =>
        rw [emitStored_eval_absent current st hlc, List.filter_cons]
        simp only [beq_self_eq_true, if_true, hrest, hlc]
    · have hf : findStored (st :: l) fid = findStored l fid := by
        simp [findStored, List.find?_cons, hs]
      rw [hf]
      cases hem : emitStored current st with
      | none => exact ih hnd.2
      | some ch =>
        have hcid : ch.file_state.id = st.id :=
          congrArg FileState.id (emitStored_file_state current st ch hem)
        rw [List.filter_cons]
        have hfalse : (ch.file_state.id == fid) = false := by
          simp only [beq_eq_false_iff_ne, ne_eq, hcid]
          exact hs
        simp only [hfalse, Bool.false_eq_true, if_false]
        exact ih hnd.2

/-- Claim C1: for every snapshot with distinct keys (each mapping an id to a
state bearing that id) and every comparison set with distinct ids,
`detect_changes` emits, per id: exactly one `ADDED` when scanned but not
stored; exactly one `MODIFIED` carrying both states when present in both
with differing `content_hash`; exactly one `DELETED` carrying the stored
state when stored but not scanned; and no change at all otherwise (in
particular when both hashes agree). -/
theorem detect_changes_per_id (current : List (String × FileState))
    (stored : List FileState)
    (hcur : (current.map Prod.fst).Nodup)
    (hst : (stored.map FileState.id).Nodup)
    (hkey : ∀ p ∈ current, p.2.id = p.1) (fid : String) :
    (detect_changes current stored).filter
        (fun ch => ch.file_state.id == fid) =
      (match lookupCur current fid, findStored stored fid with
       | some c, none => [{ change_type := .added, file_state := c }]
       | some c, some st =>
         if c.has_changed st then
           [{ change_type := .modified, file_state := c,
              previous_state := some st }]
         else []
       | none, some st =>
         [{ change_type := .deleted, file_state := st,
            previous_state := some st }]
       | none, none => []) := by
  unfold detect_changes
  rw [List.filter_append, filter_emitCurrent_eq stored fid current hcur hkey,
    filter_emitStored_eq current fid stored hst]
  cases hl : lookupCur current fid <;> cases hf : findStored stored fid <;>
    simp only []
  · rfl
  · rfl
  · rfl
  · split <;> rfl

/-- Witness for `detect_changes_per_id`: snapshot `{a, b}` against a store
holding `b` (changed) and `c`; at id `"b"` the diff is exactly one
`MODIFIED` carrying both states. -/
theorem detect_changes_per_id_witness :
    (detect_changes
        [("a", ⟨"a", "S", "/a", "hA", 0, 0, [], "t"⟩),
         ("b", ⟨"b", "S", "/b", "hB2", 0, 0, [], "t"⟩)]
        [⟨"b", "S", "/b", "hB", 0, 0, [], "t"⟩,
         ⟨"c", "S", "/c", "hC", 0, 0, [], "t"⟩]).filter
        (fun ch => ch.file_state.id == "b") =
      [{ change_type := .modified,
         file_state := ⟨"b", "S", "/b", "hB2", 0, 0, [], "t"⟩,
         previous_state := some ⟨"b", "S", "/b", "hB", 0, 0, [], "t"⟩ }] :=
  (detect_changes_per_id
    [("a", ⟨"a", "S", "/a", "hA", 0, 0, [], "t"⟩),
     ("b", ⟨"b", "S", "/b", "hB2", 0, 0, [], "t"⟩)]
    [⟨"b", "S", "/b", "hB", 0, 0, [], "t"⟩,
     ⟨"c", "S", "/c", "hC", 0, 0, [], "t"⟩]
    (by decide) (by decide) (by decide) "b").trans (by decide)

/-- A nonempty pattern cannot match past the end of the string. -/
theorem matchesAt_false_of_length (s sub : List Char) (i : Nat)
    (hsub : sub ≠ []) (h : s.length < i + sub.length) :
    matchesAt s sub i = false := by
  cases hT : matchesAt s sub i with
  | false => rfl
  | true =>
    exfalso
    unfold matchesAt at hT
    have hp : sub <+: s.drop i := List.isPrefixOf_iff_prefix.mp hT
    have hl := hp.length_le
    rw [List.length_drop] at hl
    have hpos : 0 < sub.length := List.length_pos.mpr hsub
    omega

/-- `rfindAux` finds the greatest matching position at most `n`, or reports
`-1` when none exists. -/
theorem rfindAux_spec (s sub : List Char) (n : Nat) :
    (rfindAux s sub n = -1 ∧ ∀ i ≤ n, matchesAt s sub i = false) ∨
    (∃ k ≤ n, rfindAux s sub n = (k : Int) ∧ matchesAt s sub k = true ∧
      ∀ j, k < j → j ≤ n → matchesAt s sub j = false) := by
  induction n with
  | zero =>
    cases h : matchesAt s sub 0 with
    | true =>
      right
      refine ⟨0, le_rfl, by simp [rfindAux, h], h, ?_⟩
      intro j hj hj2
      omega
    | false =>
      left
      refine ⟨by simp [rfindAux, h], ?_⟩
      intro i hi
      have : i = 0 := Nat.le_zero.mp hi
      rw [this]
      exact h
  | succ n ih =>
    cases h : matchesAt s sub (n + 1) with
    | true =>
      right
      refine ⟨n + 1, le_rfl, ?_, h, ?_⟩
      · rw [rfindAux]
        simp [h]
      · intro j hj hj2
        omega
    | false =>
      have hred : rfindAux s sub (n + 1) = rfindAux s sub n := by
        rw [rfindAux]
        simp [h]
      cases ih with
      | inl hl =>
        left
        refine ⟨hred.trans hl.1, ?_⟩
        intro i hi
        rcases Nat.lt_or_ge i (n + 1) with h2 | h2
        · exact hl.2 i (by omega)
        · have : i = n + 1 := by omega
          rw [this]
          exact h
      | inr hr =>
        obtain ⟨k, hk, heq, hm, hlast⟩ := hr
        right
        refine ⟨k, by omega, hred.trans heq, hm, ?_⟩
        intro j hj hj2
        rcases Nat.lt_or_ge j (n + 1) with h2 | h2
        · exact hlast j hj (by omega)
        · have : j = n + 1 := by omega
          rw [this]
          exact h

/-- Python `rfind` spec: either no occurrence and `-1`, or the greatest
occurrence position. -/
theorem pyRfind_spec (s sub : List Char) (hsub : sub ≠ []) :
    (pyRfind s sub = -1 ∧ ∀ i, matchesAt s sub i = false) ∨
    (∃ k : Nat, pyRfind s sub = (k : Int) ∧ matchesAt s sub k = true ∧
      ∀ j : Nat, k < j → matchesAt s sub j = false) := by
  have hpos : 0 < sub.length := List.length_pos.mpr hsub
  have hout : ∀ i, s.length < i → matchesAt s sub i = false := by
    intro i hi
    exact matchesAt_false_of_length s sub i hsub (by omega)
  cases rfindAux_spec s sub s.length with
  | inl h =>
    left
    refine ⟨h.1, fun i => ?_⟩
    rcases le_or_lt i s.length with h2 | h2
    · exact h.2 i h2
    · exact hout i h2
  | inr h =>
    obtain ⟨k, hk, heq, hm, hlast⟩ := h
    right
    refine ⟨k, heq, hm, fun j hj => ?_⟩
    rcases le_or_lt j s.length with h2 | h2
    · exact hlast j hj h2
    · exact hout j h2

/-- Matching inside the slice `text[a:e]` is matching in `text` at the
translated offset, fully inside the window. -/
theorem matchesAt_slice (text sub : List Char) (a e i : Nat)
    (hsub : sub ≠ []) (ha : a ≤ text.length) (he : e ≤ text.length) :
    matchesAt (pySlice text (a : Int) (e : Int)) sub i = true ↔
      (matchesAt text sub (a + i) = true ∧ a + i + sub.length ≤ e) := by
  have hpos : 0 < sub.length := List.length_pos.mpr hsub
  have hidx1 : pyIdx text.length (e : Int) = e := by
    unfold pyIdx
    rw [if_neg (by omega)]
    simp [Nat.min_eq_left he]
  have hidx2 : pyIdx text.length (a : Int) = a := by
    unfold pyIdx
    rw [if_neg (by omega)]
    simp [Nat.min_eq_left ha]
  have hw : (pySlice text (a : Int) (e : Int)).drop i =
      (text.drop (a + i)).take (e - (a + i)) := by
    unfold pySlice
    rw [hidx1, hidx2, List.drop_drop, List.drop_take]
  unfold matchesAt
  rw [hw, List.isPrefixOf_iff_prefix, List.prefix_take_iff,
    ← List.isPrefixOf_iff_prefix]
  constructor
  · rintro ⟨h1, h2⟩
    exact ⟨h1, by omega⟩
  · rintro ⟨h1, h2⟩
    exact ⟨h1, by omega⟩

/-- The delimiter loop: either no listed delimiter occurs at all, or the
result is the greatest occurrence of the first listed delimiter that occurs
(all delimiters earlier in the list occurring nowhere). -/
theorem findDelimLoop_spec (w : List Char) (s : Int) :
    ∀ ds : List (List Char), (∀ d ∈ ds, d ≠ []) →
      (findDelimLoop w s ds = -1 ∧
        ∀ d ∈ ds, ∀ i, matchesAt w d i = false) ∨
      (∃ pre d suf, ds = pre ++ d :: suf ∧
        (∀ d2 ∈ pre, ∀ i, matchesAt w d2 i = false) ∧
        ∃ k : Nat, matchesAt w d k = true ∧
          (∀ j : Nat, k < j → matchesAt w d j = false) ∧
          findDelimLoop w s ds = s + (k : Int) + (d.length : Int) - 1) := by
  intro ds
  induction ds with
  | nil =>
    intro _
    left
    exact ⟨rfl, by simp⟩
  | cons d ds ih =>
    intro hne
    have hd : d ≠ [] := hne d (by simp)
    cases pyRfind_spec w d hd with
    | inl h =>
      have hred : findDelimLoop w s (d :: ds) = findDelimLoop w s ds := by
        rw [findDelimLoop, h.1]
        simp
      cases ih (fun d2 h2 => hne d2 (by simp [h2])) with
      | inl h2 =>
        left
        refine ⟨hred.trans h2.1, ?_⟩
        intro d2 hd2 i
        rcases List.mem_cons.mp hd2 with h3 | h3
        · rw [h3]; exact h.2 i
        · exact h2.2 d2 h3 i
      | inr h2 =>
        obtain ⟨pre, d0, suf, hds, hpre, k, hk, hlast, heq⟩ := h2
        right
        refine ⟨d :: pre, d0, suf, by rw [hds]; rfl, ?_, k, hk, hlast,
          hred.trans heq⟩
        intro d2 hd2 i
        rcases List.mem_cons.mp hd2 with h3 | h3
        · rw [h3]; exact h.2 i
        · exact hpre d2 h3 i
    | inr h =>
      obtain ⟨k, heq, hk, hlast⟩ := h
      right
      refine ⟨[], d, ds, rfl, by simp, k, hk, hlast, ?_⟩
      rw [findDelimLoop, heq]
      have hne2 : ((k : Int) != -1) = true := by
        simp only [bne_iff_ne, ne_eq]
        omega
      rw [if_pos hne2]

/-- Claim C5, amended, the sentence-boundary preference of `chunk_text`
(processor.py lines 59-64 and 88-99), stated for iterations whose tentative
end is interior and at least 100 (so the lookback window lies inside the
text): when some sentence delimiter occurs in the 100-character window
before `end`, the adjusted end is set just past the greatest occurrence of
the FIRST delimiter, in the fixed order
`". ", "! ", "? ", ".\n", "!\n", "?\n"`, that occurs in the window at all —
not the greatest occurrence across all delimiters. -/
theorem adjustEnd_first_delim_last_occurrence (P : DocumentProcessor)
    (text : List Char) (start : Nat)
    (hcs : 100 ≤ start + P.chunk_size)
    (hint : start + P.chunk_size < text.length)
    (d : List Char) (i : Nat) (hd : d ∈ sentenceDelims)
    (hocc : windowOcc text (start + P.chunk_size) d i) :
    ∃ d0 ∈ sentenceDelims, ∃ k : Nat,
      windowOcc text (start + P.chunk_size) d0 k ∧
      adjustEnd P text start = ((k + d0.length : Nat) : Int) ∧
      (∀ j, windowOcc text (start + P.chunk_size) d0 j → j ≤ k) ∧
      ∃ pre suf, sentenceDelims = pre ++ d0 :: suf ∧
        ∀ d2 ∈ pre, ∀ j, ¬ windowOcc text (start + P.chunk_size) d2 j := by
  have hdelims_ne : ∀ d0 ∈ sentenceDelims, d0 ≠ [] := by decide
  set e0 : Nat := start + P.chunk_size with he0
  have ha : e0 - 100 ≤ text.length := by omega
  have he : e0 ≤ text.length := by omega
  set a : Nat := e0 - 100 with hadef
  set w : List Char := pySlice text (a : Int) (e0 : Int) with hwdef
  -- the window slice used by `find_sentence_boundary`
  have hcast : max 0 ((start : Int) + (P.chunk_size : Int) - 100) = (a : Int) := by
    omega
  have hsb : find_sentence_boundary text
      ((start : Int) + (P.chunk_size : Int) - 100)
      ((start : Int) + (P.chunk_size : Int)) =
      findDelimLoop w ((start : Int) + (P.chunk_size : Int) - 100)
        sentenceDelims := by
    unfold find_sentence_boundary
    rw [hcast]
    have : (start : Int) + (P.chunk_size : Int) = (e0 : Int) := by omega
    rw [this]
  -- transfer the assumed occurrence into the window slice
  have hocc_w : matchesAt w d (i - a) = true := by
    rw [hwdef, matchesAt_slice text d a e0 (i - a) (hdelims_ne d hd) ha he]
    obtain ⟨h1, h2, h3⟩ := hocc
    have hia : a + (i - a) = i := by omega
    rw [hia]
    exact ⟨h3, h2⟩
  cases findDelimLoop_spec w ((start : Int) + (P.chunk_size : Int) - 100)
      sentenceDelims hdelims_ne with
  | inl h =>
    exact absurd hocc_w (by simp [h.2 d hd (i - a)])
  | inr h =>
    obtain ⟨pre, d0, suf, hds, hpre, k, hk, hlast, heq⟩ := h
    have hd0 : d0 ∈ sentenceDelims := by
      rw [hds]
      exact List.mem_append_right pre (by simp)
    have hd0ne : d0 ≠ [] := hdelims_ne d0 hd0
    have hd0pos : 0 < d0.length := List.length_pos.mpr hd0ne
    -- the window occurrence of d0 at the translated position
    have hk_text : matchesAt text d0 (a + k) = true ∧
        a + k + d0.length ≤ e0 := by
      rw [hwdef, matchesAt_slice text d0 a e0 k hd0ne ha he] at hk
      exact hk
    have hocc0 : windowOcc text e0 d0 (a + k) :=
      ⟨by omega, hk_text.2, hk_text.1⟩
    refine ⟨d0, hd0, a + k, hocc0, ?_, ?_, pre, suf, hds, ?_⟩
    · -- evaluate adjustEnd
      unfold adjustEnd
      rw [if_pos (by push_cast; omega)]
      rw [hsb, heq]
      rw [if_pos (by simp only [bne_iff_ne, ne_eq]; omega)]
      push_cast
      omega
    · -- maximality among d0 occurrences in the window
      intro j hj
      by_contra hgt
      push_neg at hgt
      obtain ⟨hj1, hj2, hj3⟩ := hj
      have hjw : matchesAt w d0 (j - a) = true := by
        rw [hwdef, matchesAt_slice text d0 a e0 (j - a) hd0ne ha he]
        have hja : a + (j - a) = j := by omega
        rw [hja]
        exact ⟨hj3, hj2⟩
      have hcontra := hlast (j - a) (by omega)
      rw [hjw] at hcontra
      simp at hcontra
    · -- delimiters earlier in the priority order occur nowhere in the window
      intro d2 hd2 j hj
      have hd2mem : d2 ∈ sentenceDelims := by
        rw [hds]
        exact List.mem_append_left _ hd2
      obtain ⟨hj1, hj2, hj3⟩ := hj
      have hjw : matchesAt w d2 (j - a) = true := by
        rw [hwdef, matchesAt_slice text d2 a e0 (j - a) (hdelims_ne d2 hd2mem)
          ha he]
        have hja : a + (j - a) = j := by omega
        rw [hja]
        exact ⟨hj3, hj2⟩
      have hcontra := hpre d2 hd2 (j - a)
      rw [hjw] at hcontra
      simp at hcontra

set_option maxRecDepth 10000 in
/-- Claim C5, counterexample to the claim as stated: in `textC5` with
`chunk_size = 120`, the greatest delimiter occurrence in the window
`[20, 120)` before the tentative end 120 is the `"! "` at offset 100, so the
claim predicts the chunk end `102`; the code prefers the lower-priority-free
`". "` at offset 50 and sets the end to `52`, which is also where the first
emitted chunk stops. -/
theorem adjustEnd_not_last_occurrence :
    lastWindowOcc textC5 120 = some 100 ∧
    adjustEnd procC5 textC5 0 = 52 ∧
    (chunk_text procC5 textC5).head? =
      some (pyStrip (pySlice textC5 0 52)) ∧
    (52 : Int) ≠ 100 + 2 :=
  ⟨by decide, by decide, by decide, by decide⟩

set_option maxRecDepth 10000 in
/-- Witness for `adjustEnd_first_delim_last_occurrence` on `textC5`: the
`"! "` occurrence at offset 100 satisfies the premise; the boundary chosen
is the `". "` occurrence at offset 50, the greatest occurrence of the first
delimiter in priority order that occurs at all. -/
theorem adjustEnd_first_delim_last_occurrence_witness :
    (100 : Nat) ≤ 0 + procC5.chunk_size ∧
    0 + procC5.chunk_size < textC5.length ∧
    (['!', ' '] ∈ sentenceDelims) ∧
    windowOcc textC5 (0 + procC5.chunk_size) ['!', ' '] 100 ∧
    (∃ d0 ∈ sentenceDelims, ∃ k : Nat,
      windowOcc textC5 (0 + procC5.chunk_size) d0 k ∧
      adjustEnd procC5 textC5 0 = ((k + d0.length : Nat) : Int) ∧
      (∀ j, windowOcc textC5 (0 + procC5.chunk_size) d0 j → j ≤ k) ∧
      ∃ pre suf, sentenceDelims = pre ++ d0 :: suf ∧
        ∀ d2 ∈ pre, ∀ j, ¬ windowOcc textC5 (0 + procC5.chunk_size) d2 j) :=
  ⟨by decide, by decide, by decide, by decide,
    adjustEnd_first_delim_last_occurrence procC5 textC5 0 (by decide)
      (by decide) ['!', ' '] 100 (by decide) (by decide)⟩

set_option maxRecDepth 100000 in
set_option maxHeartbeats 1600000 in
/-- Claim C10, evaluation at the failing input: with `chunk_size = 5`,
`chunk_overlap = 0`, `min_chunk_size = 1` on the 100-character `textC10`,
`chunk_text` emits a chunk longer than `chunk_size` — the very first chunk
has length 7.  (The lookback window `end - 100` is negative, the boundary
index is computed relative to it, and Python resolves the resulting
negative slice end from the end of the string.) -/
theorem chunk_text_exceeds_chunk_size :
    (chunk_text procC10 textC10).all
        (fun c => decide (c.length ≤ procC10.chunk_size)) = false ∧
    (chunk_text procC10 textC10).head? =
      some ['.', ' ', 'a', 'a', 'a', 'a', 'a'] :=
  ⟨by decide, by decide⟩

end Pkb

